import Mathlib

/-!
Verification of the funding-rounds dashboard's tabular pipeline.

The program under study loads a table of funding rounds, explodes the
comma-space-separated `organization_industries` and `investor_names`
columns, and derives six aggregations (deal counts, money sums, top-N
rankings by distinct organization count, per-investor money attribution).
This file embeds those transformations as executable Lean functions over
`List Row` and proves (or refutes) the specification's claims about them.

Modelling conventions: a table is a `List Row`; money amounts are exact
rationals; `groupby` follows the data library's default of listing group
keys in ascending order; value sorts are modelled as stable descending
insertion sorts.
-/

namespace FundingRounds

/-- One row of the loaded funding-rounds table, after the loader has filled
missing `organization_industries` / `investor_names` with the empty string. -/
structure Row where
  organization_name : String
  organization_industries : String
  investor_names : String
  money_raised : ℚ
  investor_count_computed : ℕ
deriving DecidableEq, Repr

/-- Splitting a character list on the two-character delimiter `", "`,
with the semantics of Python's `str.split(", ")`: leftmost, non-overlapping
occurrences; splitting the empty string yields one empty part.
`acc` holds the (reversed) characters of the part being assembled. -/
def splitCS : List Char → List Char → List (List Char)
  | acc, [] => [acc.reverse]
  | acc, [c] => [(c :: acc).reverse]
  | acc, c1 :: c2 :: cs =>
    if c1 = ',' ∧ c2 = ' ' then acc.reverse :: splitCS [] cs
    else splitCS (c1 :: acc) (c2 :: cs)

/-- `str.split(", ")` on strings. -/
def pySplit (s : String) : List String := (splitCS [] s.data).map String.mk

/-- Joining parts back with the `", "` delimiter (Python `", ".join`). -/
def joinCS : List (List Char) → List Char
  | [] => []
  | [x] => x
  | x :: y :: xs => x ++ ',' :: ' ' :: joinCS (y :: xs)

/-- `", ".join` on strings. -/
def pyJoin (xs : List String) : String := String.mk (joinCS (xs.map String.data))

/-- Lexicographic strict comparison of character lists by code point,
the ordering Python uses on strings. -/
def charListLtB : List Char → List Char → Bool
  | [], [] => false
  | [], _ :: _ => true
  | _ :: _, [] => false
  | a :: as, b :: bs =>
    if a.toNat < b.toNat then true
    else if b.toNat < a.toNat then false
    else charListLtB as bs

/-- Strict string comparison by code points. -/
def strLtB (a b : String) : Bool := charListLtB a.data b.data

/-- Python `str.strip()`: drop leading and trailing whitespace. -/
def pyStrip (s : String) : String :=
  String.mk
    (((s.data.dropWhile Char.isWhitespace).reverse.dropWhile
      Char.isWhitespace).reverse)

/-- Insert a string into an ascending list (used to model the grouping
step, which lists group keys in ascending order). -/
def insertAsc (x : String) : List String → List String
  | [] => [x]
  | q :: qs => if strLtB q x then q :: insertAsc x qs else x :: q :: qs

/-- Ascending insertion sort on strings. -/
def sortAsc : List String → List String
  | [] => []
  | x :: xs => insertAsc x (sortAsc xs)

/-- Stable insert for the descending value sort: `p` passes over strictly
larger values and stops before the first value `≤ p.2`, so elements with
equal values keep their original relative order. -/
def insertDesc {β : Type} [LinearOrder β] (p : String × β) :
    List (String × β) → List (String × β)
  | [] => [p]
  | q :: qs => if p.2 < q.2 then q :: insertDesc p qs else p :: q :: qs

/-- Stable descending insertion sort by the value component
(modelling `sort_values(ascending=False)`). -/
def sortDesc {β : Type} [LinearOrder β] :
    List (String × β) → List (String × β)
  | [] => []
  | p :: ps => insertDesc p (sortDesc ps)

/-- The distinct values of a list, in order of first appearance;
`seen` accumulates values already emitted. -/
def firstSeenAux (seen : List String) : List String → List String
  | [] => []
  | x :: xs =>
    if x ∈ seen then firstSeenAux seen xs else x :: firstSeenAux (x :: seen) xs

/-- Distinct values in order of first appearance. -/
def firstSeen (l : List String) : List String := firstSeenAux [] l

/-- `d.groupby(key).agg`: one output pair per distinct key, keys listed in
ascending order (the grouping default), each aggregated over the rows with
that key. -/
def groupAgg {β : Type} (key : Row → String) (agg : List Row → β)
    (d : List Row) : List (String × β) :=
  (sortAsc (firstSeen (d.map key))).map fun k =>
    (k, agg (d.filter fun r => decide (key r = k)))

/-- Variant of `groupAgg` keeping group keys in first-seen order; this is
the reading of the spec's "first-seen" tie-break, used to compare against
the program's behaviour. -/
def groupAggFS {β : Type} (key : Row → String) (agg : List Row → β)
    (d : List Row) : List (String × β) :=
  (firstSeen (d.map key)).map fun k =>
    (k, agg (d.filter fun r => decide (key r = k)))

/-- Explode one row by its comma-space-split `organization_industries`. -/
def explodeIndRow (r : Row) : List Row :=
  (pySplit r.organization_industries).map fun v =>
    { r with organization_industries := v }

/-- The industry-expanded table (`df_industry` in the source). -/
def df_industry (df : List Row) : List Row := df.flatMap explodeIndRow

/-- Analysis #1: deal count per non-empty industry, descending, top 10. -/
def deals_by_industry (df : List Row) : List (String × ℕ) :=
  (sortDesc (groupAgg (fun r => r.organization_industries) (fun g => g.length)
    ((df_industry df).filter fun r =>
      decide (r.organization_industries ≠ "")))).take 10

/-- Analysis #2 grouping: money summed per industry (no filter), descending. -/
def funding_by_industry (df : List Row) : List (String × ℚ) :=
  sortDesc (groupAgg (fun r => r.organization_industries)
    (fun g => (g.map fun r => r.money_raised).sum) (df_industry df))

def TOP_N : ℕ := 80

/-- Analysis #2: top-80 industry rows plus one appended "Other" row holding
the sum of the remainder. -/
def funding_treemap_df (df : List Row) : List (String × ℚ) :=
  (funding_by_industry df).take TOP_N ++
    [("Other", (((funding_by_industry df).drop TOP_N).map Prod.snd).sum)]

/-- The whole-cell `replace('Not Mentioned', '')` normalisation applied to
the `investor_names` column before splitting. -/
def normalizeNM (s : String) : String := if s = "Not Mentioned" then "" else s

/-- Explode one row by its comma-space-split `investor_names`. -/
def explodeInvRow (r : Row) : List Row :=
  (pySplit r.investor_names).map fun v => { r with investor_names := v }

/-- The blank-investor test: `investor_names.str.strip() == ''`. -/
def blankInv (r : Row) : Bool := decide (pyStrip r.investor_names = "")

/-- `df_exp` in the source: normalise the investor cell, explode industries,
explode investors, then drop rows whose investor name strips to blank. -/
def df_exp (df : List Row) : List Row :=
  (((df.map fun r =>
      { r with investor_names := normalizeNM r.investor_names }).flatMap
        explodeIndRow).flatMap explodeInvRow).filter fun r => !(blankInv r)

/-- The rows `df_exp` derives from a single original row. -/
def dfExpRow (r : Row) : List Row :=
  ((explodeIndRow { r with investor_names := normalizeNM r.investor_names }).flatMap
    explodeInvRow).filter fun r' => !(blankInv r')

/-- `Series.nunique` of the organization-name column of a group. -/
def nuniqueOrg (g : List Row) : ℕ :=
  (firstSeen (g.map fun r => r.organization_name)).length

/-- Top `n` keys by distinct organization count, descending. -/
def topNBy (key : Row → String) (n : ℕ) (d : List Row) : List String :=
  ((sortDesc (groupAgg key nuniqueOrg d)).take n).map Prod.fst

def TOP_INVESTORS : ℕ := 5

/-- Analyses #3–#5: the top-5 investors by distinct organization count. -/
def top_investors (df : List Row) : List String :=
  topNBy (fun r => r.investor_names) TOP_INVESTORS (df_exp df)

def TOP_INDUSTRIES : ℕ := 10

/-- Analyses #3–#5: the top-10 industries by distinct organization count,
computed over `df_exp` (note: no empty-industry filter there). -/
def top_industries (df : List Row) : List String :=
  topNBy (fun r => r.organization_industries) TOP_INDUSTRIES (df_exp df)

/-- The per-investor money attribution: money divided by
`investor_count_computed`, with a zero divisor replaced by 1. -/
def money_per_investor (r : Row) : ℚ :=
  r.money_raised /
    (if r.investor_count_computed = 0 then (1 : ℚ)
     else (r.investor_count_computed : ℚ))

/-- `df_money` in the source (after its restriction step): the expanded rows
whose investor is in the top-5 set and whose industry is in the top-10 set. -/
def df_money (df : List Row) : List Row :=
  (df_exp df).filter fun r =>
    decide (r.investor_names ∈ top_investors df ∧
      r.organization_industries ∈ top_industries df)

def EXCLUDED_INVESTORS : List String := ["Y Combinator"]

/-- Analysis #5's exclusion step: drop the excluded investors from `df_money`. -/
def df_money_filtered (df : List Row) : List Row :=
  (df_money df).filter fun r => decide (r.investor_names ∉ EXCLUDED_INVESTORS)

/-- Analysis #5: the recomputed top-5 investor ranking, computed over the
already-restricted `df_money_filtered`. -/
def top_investors_no_yc (df : List Row) : List String :=
  topNBy (fun r => r.investor_names) TOP_INVESTORS (df_money_filtered df)

/-- Analysis #6: top-10 industries by distinct organization count over the
industry-expanded table with empty industries excluded. -/
def top_industries_task6 (df : List Row) : List String :=
  topNBy (fun r => r.organization_industries) TOP_INDUSTRIES
    ((df_industry df).filter fun r => decide (r.organization_industries ≠ ""))

/-- Modelled from the spec's words for claim C1: exclude the named investor
and recompute the top-5 over the remainder of ALL investors in the expanded
table `df_exp` (the program instead recomputes over the already-restricted
`df_money`). -/
def top_investors_no_yc_over_all (df : List Row) : List String :=
  topNBy (fun r => r.investor_names) TOP_INVESTORS
    ((df_exp df).filter fun r => decide (r.investor_names ∉ EXCLUDED_INVESTORS))

/-- Modelled from the spec's words for claim C9: analysis #1 with group keys
kept in first-seen order, so that the stable value sort breaks ties in
first-seen order. -/
def deals_by_industry_first_seen (df : List Row) : List (String × ℕ) :=
  (sortDesc (groupAggFS (fun r => r.organization_industries) (fun g => g.length)
    ((df_industry df).filter fun r =>
      decide (r.organization_industries ≠ "")))).take 10

/-- Modelled from the spec's words for claim C8: collapse the
industry-exploded table by re-grouping on `organization_name` and re-joining
the split values with the `", "` delimiter. -/
def collapse_industries (df : List Row) : List (String × String) :=
  (firstSeen ((df_industry df).map fun r => r.organization_name)).map fun o =>
    (o, pyJoin (((df_industry df).filter fun r =>
        decide (r.organization_name = o)).map fun r => r.organization_industries))

/-- Convenience constructor for concrete tables. -/
def mkRow (o i v : String) (m : ℚ) (c : ℕ) : Row :=
  { organization_name := o, organization_industries := i,
    investor_names := v, money_raised := m, investor_count_computed := c }

/-- The investor names of a row that survive normalisation, splitting and
the blank filter: the deal's listed investors. -/
def keptInvestors (r : Row) : List String :=
  (pySplit (normalizeNM r.investor_names)).filter fun w =>
    !(decide (pyStrip w = ""))

/-! ### Basic facts about the split/join pair -/

theorem splitCS_ne_nil (acc s : List Char) : splitCS acc s ≠ [] := by
  induction acc, s using splitCS.induct with
  | case1 acc => simp [splitCS]
  | case2 acc c => simp [splitCS]
  | case3 acc c1 c2 cs h ih => simp [splitCS, h]
  | case4 acc c1 c2 cs h ih => simpa [splitCS, h] using ih

theorem joinCS_cons_of_ne_nil (x : List Char) {l : List (List Char)}
    (h : l ≠ []) : joinCS (x :: l) = x ++ ',' :: ' ' :: joinCS l := by
  cases l with
  | nil => exact absurd rfl h
  | cons y ys => rfl

theorem joinCS_splitCS (acc s : List Char) :
    joinCS (splitCS acc s) = acc.reverse ++ s := by
  induction acc, s using splitCS.induct with
  | case1 acc => simp [splitCS, joinCS]
  | case2 acc c => simp [splitCS, joinCS]
  | case3 acc c1 c2 cs h ih =>
    simp only [splitCS, if_pos h]
    rw [joinCS_cons_of_ne_nil _ (splitCS_ne_nil [] cs), ih, h.1, h.2]
    simp
  | case4 acc c1 c2 cs h ih =>
    simp only [splitCS, if_neg h]
    rw [ih]
    simp

theorem pyJoin_pySplit (s : String) : pyJoin (pySplit s) = s := by
  unfold pyJoin pySplit
  rw [List.map_map]
  have hdata : (List.map (String.data ∘ String.mk) (splitCS [] s.data)) =
      splitCS [] s.data :=
    (List.map_congr_left fun a _ => rfl).trans (List.map_id _)
  rw [hdata, joinCS_splitCS]
  cases s; rfl

theorem pySplit_ne_nil (s : String) : pySplit s ≠ [] := by
  unfold pySplit
  intro h
  exact splitCS_ne_nil [] s.data (List.map_eq_nil_iff.mp h)

theorem pySplit_empty : pySplit "" = [""] := rfl

/-! ### Facts about the code-point comparison -/

theorem char_eq_of_toNat_eq {a b : Char} (h : a.toNat = b.toNat) : a = b :=
  Char.ext (UInt32.ext h)

theorem charListLtB_trans : ∀ {as bs cs : List Char},
    charListLtB as bs = true → charListLtB bs cs = true →
    charListLtB as cs = true := by
  intro as
  induction as with
  | nil =>
    intro bs cs hab hbc
    cases bs with
    | nil => exact hbc
    | cons b bs =>
      cases cs with
      | nil => exact absurd hbc (by simp [charListLtB])
      | cons c cs => rfl
  | cons a as ih =>
    intro bs cs hab hbc
    cases bs with
    | nil => exact absurd hab (by simp [charListLtB])
    | cons b bs =>
      cases cs with
      | nil => exact absurd hbc (by simp [charListLtB])
      | cons c cs =>
        simp only [charListLtB] at hab hbc ⊢
        rcases Nat.lt_trichotomy b.toNat c.toNat with h2 | h2 | h2
        · rcases Nat.lt_trichotomy a.toNat b.toNat with h1 | h1 | h1
          · rw [if_pos (by omega)]
          · rw [if_pos (by omega)]
          · rw [if_neg (by omega), if_pos h1] at hab
            exact absurd hab (by simp)
        · rcases Nat.lt_trichotomy a.toNat b.toNat with h1 | h1 | h1
          · rw [if_pos (by omega)]
          · rw [if_neg (by omega), if_neg (by omega)] at hab hbc ⊢
            exact ih hab hbc
          · rw [if_neg (by omega), if_pos h1] at hab
            exact absurd hab (by simp)
        · rw [if_neg (by omega), if_pos h2] at hbc
          exact absurd hbc (by simp)

theorem eq_of_charListLtB_false : ∀ {as bs : List Char},
    charListLtB as bs = false → charListLtB bs as = false → as = bs := by
  intro as
  induction as with
  | nil =>
    intro bs hab hba
    cases bs with
    | nil => rfl
    | cons b bs => exact absurd hab (by simp [charListLtB])
  | cons a as ih =>
    intro bs hab hba
    cases bs with
    | nil => exact absurd hba (by simp [charListLtB])
    | cons b bs =>
      simp only [charListLtB] at hab hba
      rcases Nat.lt_trichotomy a.toNat b.toNat with h1 | h1 | h1
      · rw [if_pos h1] at hab
        exact absurd hab (by simp)
      · rw [if_neg (by omega), if_neg (by omega)] at hab hba
        rw [char_eq_of_toNat_eq h1, ih hab hba]
      · rw [if_pos h1] at hba
        exact absurd hba (by simp)

theorem strLtB_trans {a b c : String} (hab : strLtB a b = true)
    (hbc : strLtB b c = true) : strLtB a c = true :=
  charListLtB_trans hab hbc

theorem strLtB_total_of_ne {a b : String} (hne : a ≠ b)
    (h : strLtB a b = false) : strLtB b a = true := by
  by_contra hba
  have hba' : strLtB b a = false := by
    cases hb : strLtB b a
    · rfl
    · exact absurd hb hba
  have : a.data = b.data := eq_of_charListLtB_false h hba'
  exact hne (String.ext this)

/-! ### Facts about `firstSeen` -/

theorem mem_firstSeenAux {x : String} : ∀ {l seen : List String},
    x ∈ firstSeenAux seen l ↔ x ∈ l ∧ x ∉ seen := by
  intro l
  induction l with
  | nil => intro seen; simp [firstSeenAux]
  | cons y ys ih =>
    intro seen
    by_cases hy : y ∈ seen
    · rw [firstSeenAux, if_pos hy, ih]
      constructor
      · rintro ⟨hx, hxs⟩; exact ⟨List.mem_cons_of_mem _ hx, hxs⟩
      · rintro ⟨hx, hxs⟩
        rcases List.mem_cons.mp hx with rfl | hx
        · exact absurd hy hxs
        · exact ⟨hx, hxs⟩
    · rw [firstSeenAux, if_neg hy]
      constructor
      · intro hx
        rcases List.mem_cons.mp hx with rfl | hx
        · exact ⟨List.mem_cons_self _ _, hy⟩
        · rcases ih.mp hx with ⟨h1, h2⟩
          exact ⟨List.mem_cons_of_mem _ h1,
            fun hs => h2 (List.mem_cons_of_mem _ hs)⟩
      · rintro ⟨hx, hxs⟩
        rcases List.mem_cons.mp hx with rfl | hx
        · exact List.mem_cons_self _ _
        · by_cases hxy : x = y
          · subst hxy; exact List.mem_cons_self _ _
          · exact List.mem_cons_of_mem _ (ih.mpr ⟨hx, by
              intro hs
              rcases List.mem_cons.mp hs with h | h
              · exact hxy h
              · exact hxs h⟩)

theorem mem_firstSeen {x : String} {l : List String} :
    x ∈ firstSeen l ↔ x ∈ l := by
  rw [firstSeen, mem_firstSeenAux]
  simp

theorem firstSeenAux_nodup : ∀ (l seen : List String),
    (firstSeenAux seen l).Nodup := by
  intro l
  induction l with
  | nil => intro seen; simp [firstSeenAux]
  | cons y ys ih =>
    intro seen
    by_cases hy : y ∈ seen
    · rw [firstSeenAux, if_pos hy]; exact ih seen
    · rw [firstSeenAux, if_neg hy]
      refine List.nodup_cons.mpr ⟨?_, ih (y :: seen)⟩
      intro hmem
      exact (mem_firstSeenAux.mp hmem).2 (List.mem_cons_self _ _)

theorem firstSeen_nodup (l : List String) : (firstSeen l).Nodup :=
  firstSeenAux_nodup l []

/-! ### The sorting steps are permutations -/

theorem insertAsc_perm (x : String) : ∀ (l : List String),
    (insertAsc x l).Perm (x :: l) := by
  intro l
  induction l with
  | nil => simp [insertAsc]
  | cons q qs ih =>
    rw [insertAsc]
    by_cases h : strLtB q x = true
    · rw [if_pos h]
      exact (ih.cons q).trans (List.Perm.swap x q qs)
    · rw [if_neg h]

theorem sortAsc_perm : ∀ (l : List String), (sortAsc l).Perm l := by
  intro l
  induction l with
  | nil => simp [sortAsc]
  | cons x xs ih =>
    rw [sortAsc]
    exact (insertAsc_perm x (sortAsc xs)).trans (ih.cons x)

theorem insertDesc_perm {β : Type} [LinearOrder β] (p : String × β) :
    ∀ (l : List (String × β)), (insertDesc p l).Perm (p :: l) := by
  intro l
  induction l with
  | nil => simp [insertDesc]
  | cons q qs ih =>
    rw [insertDesc]
    by_cases h : p.2 < q.2
    · rw [if_pos h]
      exact (ih.cons q).trans (List.Perm.swap p q qs)
    · rw [if_neg h]

theorem sortDesc_perm {β : Type} [LinearOrder β] :
    ∀ (l : List (String × β)), (sortDesc l).Perm l := by
  intro l
  induction l with
  | nil => simp [sortDesc]
  | cons p ps ih =>
    rw [sortDesc]
    exact (insertDesc_perm p (sortDesc ps)).trans (ih.cons p)

/-! ### Sortedness of the ascending key sort -/

theorem pairwise_insertAsc {x : String} : ∀ {l : List String},
    l.Pairwise (fun a b => strLtB a b = true) →
    (∀ y ∈ l, x ≠ y) →
    (insertAsc x l).Pairwise fun a b => strLtB a b = true := by
  intro l
  induction l with
  | nil => intro _ _; simp [insertAsc]
  | cons q qs ih =>
    intro hl hx
    rcases List.pairwise_cons.mp hl with ⟨hq, hqs⟩
    rw [insertAsc]
    by_cases h : strLtB q x = true
    · rw [if_pos h]
      refine List.pairwise_cons.mpr
        ⟨?_, ih hqs fun y hy => hx y (List.mem_cons_of_mem _ hy)⟩
      intro y hy
      rcases List.mem_cons.mp ((insertAsc_perm x qs).mem_iff.mp hy) with rfl | hy'
      · exact h
      · exact hq y hy'
    · rw [if_neg h]
      have hqx : strLtB q x = false := by
        cases hb : strLtB q x
        · rfl
        · exact absurd hb h
      have hxq : strLtB x q = true :=
        strLtB_total_of_ne (Ne.symm (hx q (List.mem_cons_self _ _))) hqx
      refine List.pairwise_cons.mpr ⟨?_, hl⟩
      intro y hy
      rcases List.mem_cons.mp hy with rfl | hy'
      · exact hxq
      · exact strLtB_trans hxq (hq y hy')

theorem pairwise_sortAsc : ∀ {l : List String}, l.Nodup →
    (sortAsc l).Pairwise fun a b => strLtB a b = true := by
  intro l
  induction l with
  | nil => intro _; simp [sortAsc]
  | cons x xs ih =>
    intro h
    rcases List.nodup_cons.mp h with ⟨hx, hxs⟩
    rw [sortAsc]
    refine pairwise_insertAsc (ih hxs) ?_
    intro y hy hxy
    exact hx (hxy ▸ (sortAsc_perm xs).mem_iff.mp hy)

/-- The order in which analysis #1 lists its ranked rows: strictly more
deals first, and on a deal-count tie the alphabetically smaller industry
first (because the grouping step sorts keys ascending before the stable
value sort runs). -/
def rankOrder (a b : String × ℕ) : Prop :=
  b.2 < a.2 ∨ (a.2 = b.2 ∧ strLtB a.1 b.1 = true)

theorem pairwise_insertDesc {p : String × ℕ} : ∀ {l : List (String × ℕ)},
    l.Pairwise rankOrder →
    (∀ q ∈ l, q.2 = p.2 → strLtB p.1 q.1 = true) →
    (insertDesc p l).Pairwise rankOrder := by
  intro l
  induction l with
  | nil => intro _ _; simp [insertDesc]
  | cons q qs ih =>
    intro hl hp
    rcases List.pairwise_cons.mp hl with ⟨hq, hqs⟩
    rw [insertDesc]
    by_cases h : p.2 < q.2
    · rw [if_pos h]
      refine List.pairwise_cons.mpr
        ⟨?_, ih hqs fun y hy hy2 => hp y (List.mem_cons_of_mem _ hy) hy2⟩
      intro y hy
      rcases List.mem_cons.mp ((insertDesc_perm p qs).mem_iff.mp hy) with rfl | hy'
      · exact Or.inl h
      · exact hq y hy'
    · rw [if_neg h]
      refine List.pairwise_cons.mpr ⟨?_, hl⟩
      intro y hy
      rcases List.mem_cons.mp hy with rfl | hy'
      · rcases Nat.lt_or_ge y.2 p.2 with h2 | h2
        · exact Or.inl h2
        · have h3 : p.2 = y.2 := by omega
          exact Or.inr ⟨h3, hp y (List.mem_cons_self _ _) h3.symm⟩
      · rcases hq y hy' with h3 | ⟨h3, _⟩
        · exact Or.inl (by omega)
        · rcases Nat.lt_or_ge y.2 p.2 with h5 | h5
          · exact Or.inl h5
          · have h6 : p.2 = y.2 := by omega
            exact Or.inr ⟨h6, hp y (List.mem_cons_of_mem _ hy') h6.symm⟩

theorem pairwise_sortDesc : ∀ {l : List (String × ℕ)},
    l.Pairwise (fun a b => strLtB a.1 b.1 = true) →
    (sortDesc l).Pairwise rankOrder := by
  intro l
  induction l with
  | nil => intro _; simp [sortDesc]
  | cons p ps ih =>
    intro h
    rcases List.pairwise_cons.mp h with ⟨hp, hps⟩
    rw [sortDesc]
    refine pairwise_insertDesc (ih hps) ?_
    intro q hq _
    exact hp q ((sortDesc_perm ps).mem_iff.mp hq)

theorem groupAgg_key_pairwise (key : Row → String) (agg : List Row → ℕ)
    (d : List Row) :
    (groupAgg key agg d).Pairwise fun a b => strLtB a.1 b.1 = true := by
  unfold groupAgg
  rw [List.pairwise_map]
  exact pairwise_sortAsc (firstSeen_nodup _)

/-! ### Where the keys of a ranking can come from -/

theorem key_mem_of_mem_groupAgg {β : Type} {key : Row → String}
    {agg : List Row → β} {d : List Row} {p : String × β}
    (h : p ∈ groupAgg key agg d) : p.1 ∈ d.map key := by
  unfold groupAgg at h
  rcases List.mem_map.mp h with ⟨k, hk, rfl⟩
  exact mem_firstSeen.mp ((sortAsc_perm _).mem_iff.mp hk)

theorem key_mem_of_mem_take_sortDesc {β : Type} [LinearOrder β]
    {key : Row → String} {agg : List Row → β} {d : List Row} {n : ℕ}
    {p : String × β}
    (h : p ∈ (sortDesc (groupAgg key agg d)).take n) : p.1 ∈ d.map key := by
  have h1 : p ∈ sortDesc (groupAgg key agg d) := List.mem_of_mem_take h
  exact key_mem_of_mem_groupAgg ((sortDesc_perm _).mem_iff.mp h1)

theorem mem_topNBy {key : Row → String} {n : ℕ} {d : List Row} {x : String}
    (h : x ∈ topNBy key n d) : ∃ r ∈ d, key r = x := by
  unfold topNBy at h
  rcases List.mem_map.mp h with ⟨p, hp, rfl⟩
  rcases List.mem_map.mp (key_mem_of_mem_take_sortDesc hp) with ⟨r, hr, hkr⟩
  exact ⟨r, hr, hkr⟩

/-! ### Grouping partitions the rows, so group sums add up to the total -/

theorem sum_filter_add_sum_filter_not (m : Row → ℚ) (p : Row → Bool) :
    ∀ d : List Row,
    ((d.filter p).map m).sum + ((d.filter fun r => !(p r)).map m).sum
      = (d.map m).sum := by
  intro d
  induction d with
  | nil => simp
  | cons r rs ih =>
    cases h : p r <;> simp [List.filter_cons, h] <;> rw [← ih] <;> ring

theorem partition_sum (key : Row → String) (m : Row → ℚ) :
    ∀ (ks : List String), ks.Nodup → ∀ (d : List Row),
    (∀ r ∈ d, key r ∈ ks) →
    (ks.map fun k => ((d.filter fun r => decide (key r = k)).map m).sum).sum
      = (d.map m).sum := by
  intro ks
  induction ks with
  | nil =>
    intro _ d hd
    have hnil : d = [] :=
      List.eq_nil_iff_forall_not_mem.mpr fun r hr => by simpa using hd r hr
    subst hnil; simp
  | cons k ks ih =>
    intro hnd d hd
    rcases List.nodup_cons.mp hnd with ⟨hk, hks⟩
    rw [List.map_cons, List.sum_cons]
    have htail : (ks.map fun k' =>
          ((d.filter fun r => decide (key r = k')).map m).sum)
        = (ks.map fun k' =>
          (((d.filter fun r => !(decide (key r = k))).filter
            fun r => decide (key r = k')).map m).sum) := by
      apply List.map_congr_left
      intro k' hk'
      have heq : (d.filter fun a =>
            decide (key a = k') && !(decide (key a = k)))
          = d.filter fun a => decide (key a = k') := by
        apply List.filter_congr
        intro r _
        by_cases h : key r = k'
        · have hne : ¬ k' = k := fun hh => hk (hh ▸ hk')
          simp [h, hne]
        · simp [h]
      rw [List.filter_filter, heq]
    have hcover : ∀ r ∈ d.filter fun r => !(decide (key r = k)),
        key r ∈ ks := by
      intro r hr
      rcases List.mem_filter.mp hr with ⟨hrd, hrk⟩
      have hne : key r ≠ k := by simpa using hrk
      rcases List.mem_cons.mp (hd r hrd) with h | h
      · exact absurd h hne
      · exact h
    rw [htail, ih hks _ hcover,
      sum_filter_add_sum_filter_not m (fun r => decide (key r = k)) d]

/-! ### The shape of the fully expanded rows of one deal -/

theorem dfExpRow_eq (r : Row) :
    dfExpRow r = (pySplit r.organization_industries).flatMap fun v =>
      (keptInvestors r).map fun w =>
        { r with organization_industries := v, investor_names := w } := by
  unfold dfExpRow explodeIndRow explodeInvRow keptInvestors
  rw [List.filter_flatMap, List.flatMap_map]
  apply List.flatMap_congr
  intro v _
  rw [List.filter_map]
  have h1 : ∀ (base : List String),
      base.filter ((fun x => !(blankInv x)) ∘ fun w =>
        { { r with investor_names := normalizeNM r.investor_names } with
            organization_industries := v, investor_names := w })
      = base.filter fun w => !(decide (pyStrip w = "")) :=
    fun base => List.filter_congr fun w _ => rfl
  rw [h1]

theorem money_per_investor_update (r : Row) (v w : String) :
    money_per_investor
      { r with organization_industries := v, investor_names := w }
      = money_per_investor r := rfl

theorem filter_eq_singleton_of_count_one {vs : List String} {i : String}
    (h : vs.count i = 1) : (vs.filter fun v => decide (v = i)) = [i] := by
  have hc : (vs.filter fun v => decide (v = i)).length = 1 := by
    rw [← List.countP_eq_length_filter]
    exact h
  rcases List.length_eq_one.mp hc with ⟨a, ha⟩
  have hmem : a ∈ vs.filter fun v => decide (v = i) := by
    rw [ha]; exact List.mem_singleton.mpr rfl
  have hai : a = i := by simpa using (List.mem_filter.mp hmem).2
  rw [ha, hai]

theorem sum_map_flatMap (f : Row → ℚ) (g : String → List Row) :
    ∀ l : List String,
    ((l.flatMap g).map f).sum = (l.map fun a => ((g a).map f).sum).sum := by
  intro l
  induction l with
  | nil => simp
  | cons a l ih =>
    simp [List.flatMap_cons, List.map_append, List.sum_append, ih]

theorem sum_map_ite (c : ℚ) (q : String → Bool) : ∀ (l : List String),
    (l.map fun u => if q u = true then c else 0).sum
      = ((l.filter q).length : ℚ) * c := by
  intro l
  induction l with
  | nil => simp
  | cons u l ih =>
    cases h : q u
    · simp [h, ih]
    · simp [h, ih]
      ring

/-! ### Per-organization blocks of the industry-expanded table -/

theorem explodeIndRow_org {r x : Row} (hx : x ∈ explodeIndRow r) :
    x.organization_name = r.organization_name := by
  rcases List.mem_map.mp hx with ⟨v, _, rfl⟩
  rfl

theorem explodeIndRow_inds (r : Row) :
    (explodeIndRow r).map (fun x => x.organization_industries)
      = pySplit r.organization_industries := by
  unfold explodeIndRow
  rw [List.map_map]
  exact (List.map_congr_left fun v _ => rfl).trans (List.map_id _)

theorem fsAux_replicate_mem {a : String} : ∀ (n : ℕ) (seen rest : List String),
    a ∈ seen →
    firstSeenAux seen (List.replicate n a ++ rest) = firstSeenAux seen rest := by
  intro n
  induction n with
  | zero => intro seen rest _; simp
  | succ m ih =>
    intro seen rest ha
    rw [List.replicate_succ, List.cons_append, firstSeenAux, if_pos ha]
    exact ih seen rest ha

theorem fsAux_blocks (org : Row → String) (len : Row → ℕ) :
    ∀ (df : List Row) (seen : List String),
    (∀ r ∈ df, org r ∉ seen) → (df.map org).Nodup → (∀ r ∈ df, 0 < len r) →
    firstSeenAux seen (df.flatMap fun r => List.replicate (len r) (org r))
      = df.map org := by
  intro df
  induction df with
  | nil => intro seen _ _ _; simp [firstSeenAux]
  | cons r rest ih =>
    intro seen hseen hnd hpos
    rcases List.nodup_cons.mp hnd with ⟨h0, hrest⟩
    cases hn : len r with
    | zero => exact absurd (hn ▸ hpos r (List.mem_cons_self _ _)) (by simp)
    | succ m =>
      rw [List.flatMap_cons, hn, List.replicate_succ, List.cons_append,
        firstSeenAux, if_neg (hseen r (List.mem_cons_self _ _)),
        fsAux_replicate_mem m _ _ (List.mem_cons_self _ _), List.map_cons]
      congr 1
      apply ih
      · intro r' hr' hmem
        rcases List.mem_cons.mp hmem with h | h
        · exact h0 (h ▸ List.mem_map_of_mem org hr')
        · exact hseen r' (List.mem_cons_of_mem _ hr') h
      · exact hrest
      · intro r' hr'
        exact hpos r' (List.mem_cons_of_mem _ hr')

theorem firstSeen_df_industry_orgs {df : List Row}
    (hnd : (df.map fun r => r.organization_name).Nodup) :
    firstSeen ((df_industry df).map fun x => x.organization_name)
      = df.map fun r => r.organization_name := by
  have hblocks : (df_industry df).map (fun x => x.organization_name)
      = df.flatMap fun r =>
          List.replicate ((pySplit r.organization_industries).length)
            r.organization_name := by
    unfold df_industry
    rw [List.map_flatMap]
    apply List.flatMap_congr
    intro r _
    unfold explodeIndRow
    rw [List.map_map]
    exact List.map_const' _ _
  rw [hblocks]
  exact fsAux_blocks (fun r => r.organization_name)
    (fun r => (pySplit r.organization_industries).length) df []
    (fun r _ h => List.not_mem_nil _ h) hnd
    (fun r _ => List.length_pos.mpr (pySplit_ne_nil _))

theorem df_industry_block_filter :
    ∀ (df : List Row), ((df.map fun r => r.organization_name).Nodup) →
    ∀ r ∈ df,
    (df_industry df).filter
        (fun x => decide (x.organization_name = r.organization_name))
      = explodeIndRow r := by
  intro df
  induction df with
  | nil => intro _ r hr; cases hr
  | cons r0 rest ih =>
    intro hnd r hr
    rcases List.nodup_cons.mp hnd with ⟨h0, hrest⟩
    unfold df_industry
    rw [List.flatMap_cons, List.filter_append]
    rcases List.mem_cons.mp hr with rfl | hr'
    · have hfull : (explodeIndRow r).filter
          (fun x => decide (x.organization_name = r.organization_name))
          = explodeIndRow r :=
        List.filter_eq_self.mpr fun x hx => by simp [explodeIndRow_org hx]
      have hnil : (rest.flatMap explodeIndRow).filter
          (fun x => decide (x.organization_name = r.organization_name))
          = [] := by
        apply List.filter_eq_nil_iff.mpr
        intro x hx
        rcases List.mem_flatMap.mp hx with ⟨s, hs, hxs⟩
        have : x.organization_name = s.organization_name := explodeIndRow_org hxs
        have hne : s.organization_name ≠ r.organization_name := by
          intro he
          apply h0
          show r.organization_name ∈ List.map (fun r => r.organization_name) rest
          rw [← he]
          exact List.mem_map_of_mem (fun r => r.organization_name) hs
        simp [this, hne]
      rw [hfull, hnil, List.append_nil]
    · have hnil0 : (explodeIndRow r0).filter
          (fun x => decide (x.organization_name = r.organization_name))
          = [] := by
        apply List.filter_eq_nil_iff.mpr
        intro x hx
        have : x.organization_name = r0.organization_name := explodeIndRow_org hx
        have hne : r0.organization_name ≠ r.organization_name := by
          intro he
          apply h0
          show r0.organization_name ∈ List.map (fun r => r.organization_name) rest
          rw [he]
          exact List.mem_map_of_mem (fun r => r.organization_name) hr'
        simp [this, hne]
      rw [hnil0, List.nil_append]
      have := ih hrest r hr'
      unfold df_industry at this
      exact this

theorem explodeIndRow_inv {r x : Row} (hx : x ∈ explodeIndRow r) :
    x.investor_names = r.investor_names := by
  rcases List.mem_map.mp hx with ⟨v, _, rfl⟩
  rfl

/-! ### Concrete tables used to separate the program from misreadings
of the specification -/

/-- Six organizations; "Y Combinator" backs all six, "B" five, "C" four,
"D" three, "E" two, "F" one.  The original top-5 investor set is therefore
{Y Combinator, B, C, D, E}, and "F" is outside it. -/
def dfC1 : List Row :=
  [ mkRow "o1" "AI" "Y Combinator, B, C, D, E, F" 0 6,
    mkRow "o2" "AI" "Y Combinator, B, C, D, E" 0 5,
    mkRow "o3" "AI" "Y Combinator, B, C, D" 0 4,
    mkRow "o4" "AI" "Y Combinator, B, C" 0 3,
    mkRow "o5" "AI" "Y Combinator, B" 0 2,
    mkRow "o6" "AI" "Y Combinator" 0 1 ]

/-- One organization with no industry listed but a real investor. -/
def dfC2 : List Row := [mkRow "A" "" "X" 0 1]

/-- One deal whose investor cell lists a real investor together with the
"Not Mentioned" marker. -/
def dfC3 : List Row := [mkRow "A" "AI" "B, Not Mentioned" 0 2]

/-- Two industries that tie at one deal each, listed in the table in
non-alphabetical order. -/
def dfC9 : List Row := [mkRow "o1" "B" "" 0 1, mkRow "o2" "A" "" 0 1]

/-! ### Claim C1 -/

/-- C1, counterexample: the program recomputes the post-exclusion top-5 over
`df_money` — already restricted to the original top-5 investors and top-10
industries — not over the remainder of all investors in the expanded table.
On `dfC1` the program's recomputed ranking has only the four surviving
original top-5 investors, while the recomputation the claim describes would
rank five investors, promoting "F". -/
theorem C1_counterexample :
    top_investors_no_yc dfC1 = ["B", "C", "D", "E"] ∧
    top_investors_no_yc_over_all dfC1 = ["B", "C", "D", "E", "F"] ∧
    top_investors_no_yc dfC1 ≠ top_investors_no_yc_over_all dfC1 := by
  decide

/-- C1, amended: analysis #5 removes the rows of the named excluded investor
from the (already restricted) money table before regrouping, so the
recomputed ranking can never contain "Y Combinator", tie or no tie; but the
ranking is recomputed over the remainder of `df_money`, not over the
remainder of all investors in the expanded table. -/
theorem C1_no_yc_in_recomputed_top (df : List Row) :
    decide ("Y Combinator" ∈ top_investors_no_yc df) = false := by
  apply decide_eq_false
  intro h
  rcases mem_topNBy h with ⟨r, hr, hkey⟩
  rcases List.mem_filter.mp hr with ⟨_, hpred⟩
  have hno : r.investor_names ∉ EXCLUDED_INVESTORS := of_decide_eq_true hpred
  apply hno
  rw [hkey]
  simp [EXCLUDED_INVESTORS]

/-! ### Claim C2 -/

/-- C2, counterexample: the top-10 industry set shared by analyses #3–#5 is
computed over `df_exp`, which filters blank investors but not empty
industries, so the empty-string industry can enter that ranking. -/
theorem C2_counterexample : "" ∈ top_industries dfC2 := by decide

/-- C2, amended: the industry rankings of analyses #1 and #6 exclude the
empty-string industry (both filter it out before grouping); the top-10
industry set shared by analyses #3–#5 applies no such filter. -/
theorem C2_excludes_empty_in_1_and_6 (df : List Row) :
    decide ("" ∈ (deals_by_industry df).map Prod.fst) = false ∧
    decide ("" ∈ top_industries_task6 df) = false := by
  constructor
  · apply decide_eq_false
    intro h
    rcases List.mem_map.mp h with ⟨p, hp, hfst⟩
    unfold deals_by_industry at hp
    rcases List.mem_map.mp (key_mem_of_mem_take_sortDesc hp) with ⟨r, hr, hkey⟩
    rcases List.mem_filter.mp hr with ⟨_, hpred⟩
    exact (of_decide_eq_true hpred) (by rw [hkey, hfst])
  · apply decide_eq_false
    intro h
    rcases mem_topNBy h with ⟨r, hr, hkey⟩
    rcases List.mem_filter.mp hr with ⟨_, hpred⟩
    exact (of_decide_eq_true hpred) hkey

/-! ### Claim C3 -/

/-- C3, counterexample: the `replace('Not Mentioned', '')` normalisation is
a whole-cell replacement applied before splitting, so "Not Mentioned"
occurring as one element of a multi-investor cell survives the explosion,
reaches the grouped data, and can enter the top-5 investor ranking. -/
theorem C3_counterexample :
    "Not Mentioned" ∈ (df_exp dfC3).map (fun r => r.investor_names) ∧
    "Not Mentioned" ∈ top_investors dfC3 := by decide

/-- C3, amended: every surviving expanded row has a non-blank (after
stripping) investor name, and a cell exactly equal to "Not Mentioned" is
normalised to blank, so such a deal contributes no expanded rows at all;
the normalisation does not reach "Not Mentioned" listed inside a
multi-investor cell. -/
theorem C3_blank_and_whole_cell_marker (df : List Row) :
    (∀ x ∈ df_exp df, blankInv x = false) ∧
    (∀ r : Row, r.investor_names = "Not Mentioned" → dfExpRow r = []) := by
  constructor
  · intro x hx
    rcases List.mem_filter.mp hx with ⟨_, hpred⟩
    simpa using hpred
  · intro r h
    unfold dfExpRow
    apply List.filter_eq_nil_iff.mpr
    intro x hx
    rcases List.mem_flatMap.mp hx with ⟨y, hy, hxy⟩
    have hyinv : y.investor_names = "" := by
      rw [explodeIndRow_inv hy]
      show normalizeNM r.investor_names = ""
      rw [h]
      rfl
    rcases List.mem_map.mp hxy with ⟨w, hw, rfl⟩
    rw [hyinv, pySplit_empty] at hw
    have hw' : w = "" := List.mem_singleton.mp hw
    subst hw'
    have hb : blankInv { y with investor_names := "" } = true := rfl
    simp [hb]

/-- C3, witness: a real investor name survives as non-blank, and a deal
whose whole investor cell is "Not Mentioned" contributes no expanded rows. -/
theorem C3_blank_and_whole_cell_marker_witness :
    blankInv (mkRow "A" "AI" "B" 0 1) = false ∧
    dfExpRow (mkRow "A" "AI" "Not Mentioned" 0 1) = [] := by
  constructor
  · exact (C3_blank_and_whole_cell_marker [mkRow "A" "AI" "B" 0 1]).1
      (mkRow "A" "AI" "B" 0 1) (by decide)
  · exact (C3_blank_and_whole_cell_marker []).2
      (mkRow "A" "AI" "Not Mentioned" 0 1) rfl

/-! ### Claim C5 -/

/-- C5: the treemap's top-80 rows plus its appended "Other" row carry
exactly the total money of the industry-expanded table — the truncation
leaks nothing. -/
theorem C5_treemap_conserves_money (df : List Row) :
    ((funding_treemap_df df).map Prod.snd).sum
      = ((df_industry df).map fun r => r.money_raised).sum := by
  unfold funding_treemap_df
  rw [List.map_append, List.sum_append]
  simp only [List.map_cons, List.map_nil, List.sum_cons, List.sum_nil,
    add_zero]
  have hsplit : (((funding_by_industry df).take TOP_N).map Prod.snd).sum
      + (((funding_by_industry df).drop TOP_N).map Prod.snd).sum
      = ((funding_by_industry df).map Prod.snd).sum := by
    conv_rhs => rw [← List.take_append_drop TOP_N (funding_by_industry df)]
    rw [List.map_append, List.sum_append]
  rw [hsplit]
  unfold funding_by_industry
  rw [((sortDesc_perm _).map Prod.snd).sum_eq]
  unfold groupAgg
  rw [List.map_map, ((sortAsc_perm _).map _).sum_eq]
  exact partition_sum (fun r => r.organization_industries)
    (fun r => r.money_raised) _ (firstSeen_nodup _) _
    (fun r hr => mem_firstSeen.mpr (List.mem_map_of_mem _ hr))

/-! ### Claim C6 -/

/-- C6: a row with `investor_count_computed = 0` has its divisor replaced
by 1, so the attribution is the row's full money value (in particular it is
a plain rational: no infinity, NaN or error can arise). -/
theorem C6_zero_guard (r : Row) (h : r.investor_count_computed = 0) :
    money_per_investor r = r.money_raised := by
  unfold money_per_investor
  rw [if_pos h, div_one]

/-- C6, witness at a concrete zero-count row. -/
theorem C6_zero_guard_witness :
    (mkRow "A" "AI" "X" 50 0).investor_count_computed = 0 ∧
    money_per_investor (mkRow "A" "AI" "X" 50 0)
      = (mkRow "A" "AI" "X" 50 0).money_raised :=
  ⟨rfl, C6_zero_guard (mkRow "A" "AI" "X" 50 0) rfl⟩

/-! ### Claim C7 -/

/-- C7: exploding the industries column turns a row into one row per
element of its comma-space split, leaving every other column unchanged on
each produced row; and since splitting the empty string yields the single
empty part, a row with no listed industry survives as exactly one row,
unchanged. -/
theorem C7_explode_preserves_scalars (r : Row) :
    ((explodeIndRow r).map fun x =>
        (x.organization_name, x.investor_names, x.money_raised,
          x.investor_count_computed))
      = (pySplit r.organization_industries).map (fun _ =>
        (r.organization_name, r.investor_names, r.money_raised,
          r.investor_count_computed)) ∧
    (explodeIndRow r).map (fun x => x.organization_industries)
      = pySplit r.organization_industries ∧
    (r.organization_industries = "" → explodeIndRow r = [r]) := by
  refine ⟨?_, explodeIndRow_inds r, ?_⟩
  · unfold explodeIndRow
    rw [List.map_map]
    rfl
  · intro h
    unfold explodeIndRow
    rw [h, pySplit_empty]
    simp only [List.map_cons, List.map_nil]
    obtain ⟨o, i, v, m, c⟩ := r
    have hi : i = "" := h
    subst hi
    rfl

/-- C7, witness: a row with an empty industries cell explodes to exactly
itself. -/
theorem C7_explode_preserves_scalars_witness :
    (mkRow "A" "" "X" 5 1).organization_industries = "" ∧
    explodeIndRow (mkRow "A" "" "X" 5 1) = [mkRow "A" "" "X" 5 1] :=
  ⟨rfl, (C7_explode_preserves_scalars (mkRow "A" "" "X" 5 1)).2.2 rfl⟩

/-! ### Block sums of one deal's expanded rows -/

/-- Within the industry-`u` block of one deal's expanded rows, restricting
to a single industry `i` keeps the whole block when `u = i` and nothing
otherwise; the block's money then sums to (number of kept investors) times
the per-investor share. -/
theorem kept_block_ind (r : Row) (i u : String) :
    ((((keptInvestors r).map fun w =>
        { r with organization_industries := u, investor_names := w }).filter
      fun x => decide (x.organization_industries = i)).map
        money_per_investor).sum
    = if decide (u = i) = true
      then ((keptInvestors r).length : ℚ) * money_per_investor r else 0 := by
  rw [List.filter_map]
  by_cases hu : u = i
  · rw [if_pos (by simp [hu])]
    have hfe : (keptInvestors r).filter ((fun x =>
          decide (x.organization_industries = i)) ∘ fun w =>
          { r with organization_industries := u, investor_names := w })
        = keptInvestors r := by
      apply List.filter_eq_self.mpr
      intro w _
      show decide (u = i) = true
      simp [hu]
    rw [hfe, List.map_map]
    have h1 : (keptInvestors r).map (money_per_investor ∘ fun w =>
          { r with organization_industries := u, investor_names := w })
        = List.replicate (keptInvestors r).length (money_per_investor r) := by
      rw [← List.map_const']
      exact List.map_congr_left fun w _ => rfl
    rw [h1, List.sum_replicate, nsmul_eq_mul]
  · rw [if_neg (by simp [hu])]
    have hfe : (keptInvestors r).filter ((fun x =>
          decide (x.organization_industries = i)) ∘ fun w =>
          { r with organization_industries := u, investor_names := w })
        = [] := by
      apply List.filter_eq_nil_iff.mpr
      intro w _
      show ¬ decide (u = i) = true
      simp [hu]
    rw [hfe]
    rfl

/-- Within the industry-`u` block, restricting to investor `v` and industry
`i` keeps exactly the single `v` row when `u = i` (given `v` is listed
once), contributing one per-investor share. -/
theorem kept_block_pair (r : Row) (v : String)
    (hv : (keptInvestors r).count v = 1) (i u : String) :
    ((((keptInvestors r).map fun w =>
        { r with organization_industries := u, investor_names := w }).filter
      fun x => decide (x.investor_names = v ∧
        x.organization_industries = i)).map money_per_investor).sum
    = if decide (u = i) = true then money_per_investor r else 0 := by
  rw [List.filter_map]
  by_cases hu : u = i
  · rw [if_pos (by simp [hu])]
    have hfe : (keptInvestors r).filter ((fun x =>
          decide (x.investor_names = v ∧ x.organization_industries = i)) ∘
          fun w =>
          { r with organization_industries := u, investor_names := w })
        = (keptInvestors r).filter fun w => decide (w = v) := by
      apply List.filter_congr
      intro w _
      show decide (w = v ∧ u = i) = decide (w = v)
      simp [hu]
    rw [hfe, filter_eq_singleton_of_count_one hv]
    simp [money_per_investor_update]
  · rw [if_neg (by simp [hu])]
    have hfe : (keptInvestors r).filter ((fun x =>
          decide (x.investor_names = v ∧ x.organization_industries = i)) ∘
          fun w =>
          { r with organization_industries := u, investor_names := w })
        = [] := by
      apply List.filter_eq_nil_iff.mpr
      intro w _
      show ¬ decide (w = v ∧ u = i) = true
      simp [hu]
    rw [hfe]
    rfl

/-- Within the industry-`u` block, restricting to investor `v` and any
industry inside the set `S` keeps exactly the single `v` row when
`u ∈ S`. -/
theorem kept_block_memS (r : Row) (v : String)
    (hv : (keptInvestors r).count v = 1) (S : List String) (u : String) :
    ((((keptInvestors r).map fun w =>
        { r with organization_industries := u, investor_names := w }).filter
      fun x => decide (x.investor_names = v ∧
        x.organization_industries ∈ S)).map money_per_investor).sum
    = if decide (u ∈ S) = true then money_per_investor r else 0 := by
  rw [List.filter_map]
  by_cases hu : u ∈ S
  · rw [if_pos (by simpa using hu)]
    have hfe : (keptInvestors r).filter ((fun x =>
          decide (x.investor_names = v ∧ x.organization_industries ∈ S)) ∘
          fun w =>
          { r with organization_industries := u, investor_names := w })
        = (keptInvestors r).filter fun w => decide (w = v) := by
      apply List.filter_congr
      intro w _
      show decide (w = v ∧ u ∈ S) = decide (w = v)
      simp [hu]
    rw [hfe, filter_eq_singleton_of_count_one hv]
    simp [money_per_investor_update]
  · rw [if_neg (by simpa using hu)]
    have hfe : (keptInvestors r).filter ((fun x =>
          decide (x.investor_names = v ∧ x.organization_industries ∈ S)) ∘
          fun w =>
          { r with organization_industries := u, investor_names := w })
        = [] := by
      apply List.filter_eq_nil_iff.mpr
      intro w _
      show ¬ decide (w = v ∧ u ∈ S) = true
      simp [hu]
    rw [hfe]
    rfl

/-! ### Claim C4 -/

/-- C4: for a deal with a positive computed investor count equal to the
number of its listed (kept) investors, the attribution credits each
co-investor exactly money/count, and — within any industry the deal lists
exactly once — the credited shares of its expanded rows sum back to the
deal's full money. -/
theorem C4_per_investor_attribution (r : Row) (i : String)
    (hN : 0 < r.investor_count_computed)
    (hi : (pySplit r.organization_industries).count i = 1)
    (hlen : (keptInvestors r).length = r.investor_count_computed) :
    money_per_investor r
      = r.money_raised / (r.investor_count_computed : ℚ) ∧
    (((dfExpRow r).filter fun x =>
        decide (x.organization_industries = i)).map money_per_investor).sum
      = r.money_raised := by
  have hshare : money_per_investor r
      = r.money_raised / (r.investor_count_computed : ℚ) := by
    unfold money_per_investor
    rw [if_neg (by omega)]
  refine ⟨hshare, ?_⟩
  rw [dfExpRow_eq, List.filter_flatMap, sum_map_flatMap,
    List.map_congr_left (fun u _ => kept_block_ind r i u), sum_map_ite,
    filter_eq_singleton_of_count_one hi, hlen, hshare,
    List.length_singleton, Nat.cast_one, one_mul, mul_comm,
    div_mul_cancel₀ _ (Nat.cast_ne_zero.mpr (by omega))]

/-- C4, witness: a deal of 100 with two listed investors credits 50 to
each, and the two shares sum back to 100. -/
theorem C4_per_investor_attribution_witness :
    0 < (mkRow "A" "AI" "X, Y" 100 2).investor_count_computed ∧
    (pySplit (mkRow "A" "AI" "X, Y" 100 2).organization_industries).count
      "AI" = 1 ∧
    (keptInvestors (mkRow "A" "AI" "X, Y" 100 2)).length
      = (mkRow "A" "AI" "X, Y" 100 2).investor_count_computed ∧
    (money_per_investor (mkRow "A" "AI" "X, Y" 100 2)
      = (mkRow "A" "AI" "X, Y" 100 2).money_raised
        / ((mkRow "A" "AI" "X, Y" 100 2).investor_count_computed : ℚ) ∧
    (((dfExpRow (mkRow "A" "AI" "X, Y" 100 2)).filter fun x =>
        decide (x.organization_industries = "AI")).map
      money_per_investor).sum = (mkRow "A" "AI" "X, Y" 100 2).money_raised) :=
  ⟨by decide, by decide, by decide,
    C4_per_investor_attribution (mkRow "A" "AI" "X, Y" 100 2) "AI"
      (by decide) (by decide) (by decide)⟩

/-! ### Claim C8 -/

/-- C8: collapsing the industry-exploded table by re-grouping on the
organization name and re-joining the split values with `", "` reconstructs
each row's original multi-valued industries string exactly (hence also up
to order-insensitive set equality), provided organization names are unique
keys as the data model requires. -/
theorem C8_roundtrip (df : List Row)
    (hnd : (df.map fun r => r.organization_name).Nodup) :
    collapse_industries df
      = df.map fun r => (r.organization_name, r.organization_industries) := by
  unfold collapse_industries
  rw [firstSeen_df_industry_orgs hnd, List.map_map]
  apply List.map_congr_left
  intro r hr
  show (r.organization_name,
      pyJoin (((df_industry df).filter fun x =>
        decide (x.organization_name = r.organization_name)).map
        fun x => x.organization_industries))
    = (r.organization_name, r.organization_industries)
  rw [df_industry_block_filter df hnd r hr, explodeIndRow_inds,
    pyJoin_pySplit]

def dfC8 : List Row :=
  [mkRow "A" "AI, Software" "X" 100 1, mkRow "B" "AI" "X, Y" 200 2]

/-- C8, witness: the two-row scenario table collapses back to its original
multi-valued strings. -/
theorem C8_roundtrip_witness :
    ((dfC8.map fun r => r.organization_name).Nodup) ∧
    collapse_industries dfC8 = [("A", "AI, Software"), ("B", "AI")] :=
  ⟨by decide, (C8_roundtrip dfC8 (by decide)).trans (by decide)⟩

/-! ### Claim C9 -/

/-- C9, counterexample: with industries "B" then "A" tied at one deal each,
the program ranks "A" before "B" (the grouping step sorts keys
alphabetically before the stable value sort), while the first-seen
tie-break the claim describes would rank "B" first. -/
theorem C9_counterexample :
    deals_by_industry dfC9 = [("A", 1), ("B", 1)] ∧
    deals_by_industry_first_seen dfC9 = [("B", 1), ("A", 1)] ∧
    deals_by_industry dfC9 ≠ deals_by_industry_first_seen dfC9 := by decide

/-- C9, amended: analysis #1 is deterministic — rerunning it on the same
table gives the identical ranked list — and ties in deal count are broken
deterministically by ascending industry name (the grouping's key order),
not by first-seen order in the table. -/
theorem C9_deterministic_ranking (df : List Row) :
    deals_by_industry df = deals_by_industry df ∧
    (deals_by_industry df).Pairwise rankOrder :=
  ⟨rfl, by
    unfold deals_by_industry
    exact List.Pairwise.sublist (List.take_sublist _ _)
      (pairwise_sortDesc (groupAgg_key_pairwise _ _ _))⟩

/-! ### Claim C10 -/

/-- C10: a deal listing an investor once and K distinct industries inside
the industry set S contributes exactly one per-investor share to each
(investor, industry) pair with industry in S — so money is conserved per
pair — and therefore K shares in total to that investor summed across S. -/
theorem C10_share_multiplied_per_industry (r : Row) (v : String)
    (S : List String)
    (hv : (keptInvestors r).count v = 1)
    (hnd : (pySplit r.organization_industries).Nodup) :
    (∀ i ∈ pySplit r.organization_industries,
      (((dfExpRow r).filter fun x =>
          decide (x.investor_names = v ∧ x.organization_industries = i)).map
        money_per_investor).sum = money_per_investor r) ∧
    (((dfExpRow r).filter fun x =>
        decide (x.investor_names = v ∧ x.organization_industries ∈ S)).map
      money_per_investor).sum
      = (((pySplit r.organization_industries).filter fun i =>
          decide (i ∈ S)).length : ℚ) * money_per_investor r := by
  constructor
  · intro i hi
    rw [dfExpRow_eq, List.filter_flatMap, sum_map_flatMap,
      List.map_congr_left (fun u _ => kept_block_pair r v hv i u),
      sum_map_ite,
      filter_eq_singleton_of_count_one (List.count_eq_one_of_mem hnd hi),
      List.length_singleton, Nat.cast_one, one_mul]
  · rw [dfExpRow_eq, List.filter_flatMap, sum_map_flatMap,
      List.map_congr_left (fun u _ => kept_block_memS r v hv S u),
      sum_map_ite]

def rC10 : Row := mkRow "A" "AI, Software" "X, Y" 100 2

/-- C10, witness: a 100-dollar deal with two investors and two top-set
industries credits investor "X" 50 under each industry, 100 in total
across the set. -/
theorem C10_share_multiplied_per_industry_witness :
    (keptInvestors rC10).count "X" = 1 ∧
    (pySplit rC10.organization_industries).Nodup ∧
    "AI" ∈ pySplit rC10.organization_industries ∧
    (((dfExpRow rC10).filter fun x =>
        decide (x.investor_names = "X" ∧
          x.organization_industries = "AI")).map
      money_per_investor).sum = money_per_investor rC10 ∧
    (((dfExpRow rC10).filter fun x =>
        decide (x.investor_names = "X" ∧
          x.organization_industries ∈ ["AI", "Software"])).map
      money_per_investor).sum
      = (((pySplit rC10.organization_industries).filter fun i =>
          decide (i ∈ ["AI", "Software"])).length : ℚ)
        * money_per_investor rC10 :=
  ⟨by decide, by decide, by decide,
    (C10_share_multiplied_per_industry rC10 "X" ["AI", "Software"]
      (by decide) (by decide)).1 "AI" (by decide),
    (C10_share_multiplied_per_industry rC10 "X" ["AI", "Software"]
      (by decide) (by decide)).2⟩

end FundingRounds
